import Mathlib

/-!
Verification of the document-indexing and retrieval-augmented query pipeline
implemented in `src/app/api/chat/route.ts` (a Next.js API route).

The route is shallowly embedded as pure Lean functions.  External
collaborators (the pdf parser, the langchain text splitter, the OpenAI
embedding service, the Pinecone vector store and the completion service)
are parameters of the model, gathered in an `Env` record: each field gives
the outcome the collaborator would produce, and the embedded code composes
those outcomes exactly the way the TypeScript does.  Every network call the
route issues is recorded in an event trace so that theorems can speak about
which collaborators were invoked and in which order.

Machine integers do not occur in the route: all arithmetic is on array
indices and lengths, modelled as `Nat`.
-/

namespace PdfChatbot

/-! ### Decimal rendering of chunk ordinals

The route derives vector identifiers by string interpolation of a decimal
numeral. We use the Lean decimal renderer `Nat.repr` for the
embedding and prove it injective, which is what the upsert-convergence
arguments need.  `digitsRev` is a proof-side reconstruction of the digit
list (least significant first). -/

def digitsRev (n : Nat) : List Nat :=
  if n < 10 then [n] else n % 10 :: digitsRev (n / 10)
decreasing_by omega

def ofDigitsRev : List Nat → Nat
  | [] => 0
  | d :: ds => d + 10 * ofDigitsRev ds

theorem ofDigitsRev_digitsRev (n : Nat) : ofDigitsRev (digitsRev n) = n := by
  induction n using Nat.strong_induction_on with
  | _ n ih =>
    rw [digitsRev]
    split
    · simp [ofDigitsRev]
    · rw [ofDigitsRev, ih (n / 10) (by omega)]
      omega

theorem digitsRev_injective : Function.Injective digitsRev := by
  intro a b h
  rw [← ofDigitsRev_digitsRev a, ← ofDigitsRev_digitsRev b, h]

theorem digitsRev_lt_ten (n : Nat) : ∀ d ∈ digitsRev n, d < 10 := by
  induction n using Nat.strong_induction_on with
  | _ n ih =>
    rw [digitsRev]
    split
    · intro d hd
      simp only [List.mem_singleton] at hd
      omega
    · intro d hd
      rcases List.mem_cons.mp hd with h1 | h2
      · omega
      · exact ih (n / 10) (by omega) d h2

theorem digitChar_inj_lt (a b : Nat) (ha : a < 10) (hb : b < 10)
    (h : Nat.digitChar a = Nat.digitChar b) : a = b := by
  interval_cases a <;> interval_cases b <;> revert h <;> decide

theorem map_digitChar_inj (l1 : List Nat) :
    ∀ l2 : List Nat, (∀ d ∈ l1, d < 10) → (∀ d ∈ l2, d < 10) →
      l1.map Nat.digitChar = l2.map Nat.digitChar → l1 = l2 := by
  induction l1 with
  | nil =>
    intro l2 _ _ h
    cases l2 with
    | nil => rfl
    | cons b t => simp at h
  | cons a t1 ih =>
    intro l2 h1 h2 h
    cases l2 with
    | nil => simp at h
    | cons b t2 =>
      simp only [List.map_cons, List.cons.injEq] at h
      have hab : a = b :=
        digitChar_inj_lt a b (h1 a (by simp)) (h2 b (by simp)) h.1
      have ht : t1 = t2 :=
        ih t2 (fun d hd => h1 d (by simp [hd])) (fun d hd => h2 d (by simp [hd])) h.2
      rw [hab, ht]

theorem toDigitsCore_eq (fuel : Nat) :
    ∀ (n : Nat) (acc : List Char), n < fuel →
      Nat.toDigitsCore 10 fuel n acc = (digitsRev n).reverse.map Nat.digitChar ++ acc := by
  induction fuel with
  | zero => omega
  | succ f ih =>
    intro n acc hf
    rw [Nat.toDigitsCore]
    by_cases h : n / 10 = 0
    · have hn : n < 10 := by omega
      simp only [h, if_true]
      rw [digitsRev]
      simp [hn, Nat.mod_eq_of_lt hn]
    · simp only [h, if_false]
      rw [ih (n / 10) _ (by omega)]
      have hrw : digitsRev n = n % 10 :: digitsRev (n / 10) := by
        rw [digitsRev]
        simp [show ¬ n < 10 by omega]
      rw [hrw]
      simp [List.reverse_cons, List.map_append, List.append_assoc]

theorem repr_eq_digits (n : Nat) :
    Nat.repr n = List.asString ((digitsRev n).reverse.map Nat.digitChar) := by
  show (Nat.toDigits 10 n).asString = _
  rw [Nat.toDigits, toDigitsCore_eq (n + 1) n [] (by omega)]
  simp

theorem repr_injective : Function.Injective Nat.repr := by
  intro a b h
  rw [repr_eq_digits, repr_eq_digits] at h
  have h2 : (digitsRev a).reverse.map Nat.digitChar
      = (digitsRev b).reverse.map Nat.digitChar := congrArg String.toList h
  have h3 : (digitsRev a).reverse = (digitsRev b).reverse :=
    map_digitChar_inj _ _
      (fun d hd => digitsRev_lt_ten a d (List.mem_reverse.mp hd))
      (fun d hd => digitsRev_lt_ten b d (List.mem_reverse.mp hd)) h2
  exact digitsRev_injective (List.reverse_injective h3)

/-- Identifier assigned to the passage with global ordinal `n`, as the
TypeScript template literal renders it. -/
def chunkId (n : Nat) : String := "chunk_" ++ Nat.repr n

theorem chunkId_injective : Function.Injective chunkId := by
  intro a b h
  have hd : ("chunk_" ++ Nat.repr a).data = ("chunk_" ++ Nat.repr b).data :=
    congrArg String.data h
  rw [String.data_append, String.data_append] at hd
  have h2 : (Nat.repr a).data = (Nat.repr b).data := List.append_cancel_left hd
  have h3 : Nat.repr a = Nat.repr b := by
    cases hra : Nat.repr a with
    | mk la =>
      cases hrb : Nat.repr b with
      | mk lb =>
        rw [hra, hrb] at h2
        simp only at h2
        rw [h2]
  exact repr_injective h3

/-! ### Data model

`VectorRecord` mirrors the objects the route upserts into Pinecone:
`{ id, values, metadata: { text } }`.  Embedding vectors are lists of
integers (their numeric content is irrelevant to every claim; the route
never inspects them). -/

abbrev Vec := List Int

structure VectorRecord where
  id : String
  values : Vec
  metadataText : String
deriving Repr, DecidableEq

/-- One match returned by `index.query`; `metadataText` models
`match.metadata?.text`, which can be absent. -/
structure QueryMatch where
  id : String
  metadataText : Option String
deriving Repr, DecidableEq

/-- Network calls the route issues, in order. -/
inductive Event where
  | extract
  | embed (text : String)
  | upsert (records : List VectorRecord)
  | queryStore (vector : Vec) (topK : Nat)
  | complete (systemContent userContent : String)
deriving Repr, DecidableEq

/-- Outcomes of the external collaborators, as the route would observe
them.  `Except.error e` stands for a rejected promise whose `Error` has
message `e`.

* `pdfParse` — `fs.existsSync` + `fs.readFileSync` + `pdf(dataBuffer)`
  combined: `.error e` if the file is missing or reading/parsing throws
  (with `e` the resulting message), `.ok none` if parsing yielded no
  `text` field, `.ok (some t)` if it yielded text `t` (possibly empty —
  the falsiness check of the route treats the empty string as missing).
* `split` — `splitter.createDocuments([text])`, as the list of chunk
  texts (`chunk.pageContent`).
* `embedFn` — `embeddings.embedQuery(text)` (used by both the indexing
  and the query path, which share the embedding service).
* `upsertFn b` — transport outcome of the `b`-th `index.upsert` call.
* `jsonQuery` — `(await req.json()).query`.
* `storeQuery v k` — `index.query({vector: v, topK: k, includeMetadata:
  true})`; `.ok none` models a response whose match list is undefined.
* `completeFn sys user` — the completion fetch chain, returning
  `completion.choices[0].message.content`. -/
structure Env where
  pdfParse : Except String (Option String)
  split : String → List String
  embedFn : String → Except String Vec
  upsertFn : Nat → Except String Unit
  jsonQuery : Except String String
  storeQuery : Vec → Nat → Except String (Option (List QueryMatch))
  completeFn : String → String → Except String String

/-- Pinecone index contents: a sequence of records, at most one per id
(upsert replaces the record with the same id). -/
abbrev Store := List VectorRecord

def upsertOne (r : VectorRecord) (st : Store) : Store :=
  if st.any (fun x => x.id = r.id) then
    st.map (fun x => if x.id = r.id then r else x)
  else st ++ [r]

def upsertStore : List VectorRecord → Store → Store
  | [], st => st
  | r :: rest, st => upsertStore rest (upsertOne r st)

/-- The module-level mutable state of `route.ts`: the `isInitialized`
flag, together with the (external, but logically process-shared) index
contents. -/
structure PineState where
  isInitialized : Bool
  store : Store
deriving Repr, DecidableEq

/-! ### The index build (`processPDF` and `initializePinecone`) -/

/-- Embedding of `processPDF`: extraction plus the non-emptiness check,
with the catch-block wrapping every failure message. -/
def processPDF (env : Env) : List Event × Except String String :=
  ([Event.extract],
    match env.pdfParse with
    | .error e => .error ("Failed to process PDF: " ++ e)
    | .ok none => .error ("Failed to process PDF: Failed to extract text from PDF")
    | .ok (some t) =>
        if t = "" then .error ("Failed to process PDF: Failed to extract text from PDF")
        else .ok t)

/-- Records built for one batch by
`batchChunks.map(async (chunk, index) => ...)`: the chunk at position
`index` of a batch starting at global offset `start` gets id
`chunk_(start + index)` and its text as metadata.  `Promise.all` is
modelled by the leftmost failure winning (which rejection wins first is
timing-dependent in JS; only the fact of failure matters to the route). -/
def embedRecords (env : Env) : Nat → List String → Except String (List VectorRecord)
  | _, [] => .ok []
  | start, c :: rest =>
    match env.embedFn c with
    | .error e => .error e
    | .ok v =>
      match embedRecords env (start + 1) rest with
      | .error e => .error e
      | .ok recs => .ok (⟨chunkId start, v, c⟩ :: recs)

/-- Batching loop bounds: `for (let i = 0; i < n; i += 100)` runs
`⌈n/100⌉` times, and iteration `b` slices `[100·b, 100·b + 100)`. -/
def batchList (l : List String) : List (List String) :=
  (List.range ((l.length + 99) / 100)).map (fun b => (l.drop (100 * b)).take 100)

/-- Body of the batching loop from batch `b` on: embed the batch (all
calls are issued), then upsert it, then continue with the next batch;
stop at the first failure. -/
def runBatches (env : Env) : Nat → List (List String) → Store → List Event × Store × Except String Unit
  | _, [], st => ([], st, .ok ())
  | b, batch :: rest, st =>
    let evEmbeds := batch.map Event.embed
    match embedRecords env (100 * b) batch with
    | .error e => (evEmbeds, st, .error e)
    | .ok recs =>
      match env.upsertFn b with
      | .error e => (evEmbeds ++ [Event.upsert recs], st, .error e)
      | .ok _ =>
        let out := runBatches env (b + 1) rest (upsertStore recs st)
        (evEmbeds ++ [Event.upsert recs] ++ out.1, out.2)

/-- Embedding of `initializePinecone`: early return on the flag,
otherwise extract, split, run the batches, and set the flag; the catch
block wraps any failure as `Initialization failed: ...` and leaves the
flag untouched. -/
def initializePinecone (env : Env) (s : PineState) : List Event × PineState × Except String Unit :=
  if s.isInitialized then ([], s, .ok ())
  else
    let pr := processPDF env
    match pr.2 with
    | .error e => (pr.1, s, .error ("Initialization failed: " ++ e))
    | .ok text =>
      let chunks := env.split text
      let out := runBatches env 0 (batchList chunks) s.store
      match out.2.2 with
      | .error e => (pr.1 ++ out.1, { s with store := out.2.1 }, .error ("Initialization failed: " ++ e))
      | .ok _ => (pr.1 ++ out.1, { isInitialized := true, store := out.2.1 }, .ok ())

/-! ### The request handler (`POST`) -/

/-- Response of the route: `NextResponse.json({answer})` or
`NextResponse.json({error}, {status})`. -/
inductive PostResponse where
  | answer (text : String)
  | errorResp (msg : String) (status : Nat)
deriving Repr, DecidableEq

/-- Context assembly — the match list mapped through `m.metadata?.text`
and joined with a newline separator:
`none` when the match list is undefined; otherwise the texts joined by
newlines, an absent text contributing the empty string (JS `Array.join`
renders `undefined` elements as empty). -/
def contextOf (found : Option (List QueryMatch)) : Option String :=
  found.map (fun ms => String.intercalate "\n" (ms.map (fun m => m.metadataText.getD "")))

/-- JS template-literal interpolation of a possibly-undefined value. -/
def interpolate : Option String → String
  | none => "undefined"
  | some s => s

/-- The fixed part of the system message, up to the interpolated context. -/
def systemIntro : String :=
  "You are a helpful assistant answering questions about a book. \n                     Use the following context to answer the question. \n                     If you\x27re not sure about something, say so.\n                     Context: "

/-- Embedding of the `POST` handler: initialization gate, body parsing,
query embedding, top-5 retrieval, context assembly, completion; the
catch block turns any failure into `{error}` with status 500. -/
def POST (env : Env) (s : PineState) : List Event × PineState × PostResponse :=
  let ini := initializePinecone env s
  match ini.2.2 with
  | .error e => (ini.1, ini.2.1, .errorResp ("Failed to process request: " ++ e) 500)
  | .ok _ =>
    let s1 := ini.2.1
    match env.jsonQuery with
    | .error e => (ini.1, s1, .errorResp ("Failed to process request: " ++ e) 500)
    | .ok query =>
      match env.embedFn query with
      | .error e =>
          (ini.1 ++ [Event.embed query], s1, .errorResp ("Failed to process request: " ++ e) 500)
      | .ok qv =>
        match env.storeQuery qv 5 with
        | .error e =>
            (ini.1 ++ [Event.embed query, Event.queryStore qv 5], s1,
              .errorResp ("Failed to process request: " ++ e) 500)
        | .ok found =>
          let sys := systemIntro ++ interpolate (contextOf found)
          match env.completeFn sys query with
          | .error e =>
              (ini.1 ++ [Event.embed query, Event.queryStore qv 5, Event.complete sys query], s1,
                .errorResp ("Failed to process request: " ++ e) 500)
          | .ok ans =>
              (ini.1 ++ [Event.embed query, Event.queryStore qv 5, Event.complete sys query], s1,
                .answer ans)

/-! ### The passage splitter -/

/-- Number of passages the fixed-stride splitter yields on a text of
length `len > 0`: one, plus one per started stride of `L − O = 800`
beyond the first passage. -/
def numPassages (len : Nat) : Nat := if len ≤ 1000 then 1 else 1 + (len - 1000 + 799) / 800

/-- Modelled from the spec: the Passage Splitter of spec section 4.2.
The splitting algorithm itself lives in the `langchain`
`RecursiveCharacterTextSplitter` dependency, not in this repository;
`route.ts` only configures it with `chunkSize: 1000, chunkOverlap: 200`.
Following the spec text: with `L = 1000` and `O = 200`, passage `i`
starts at `i·(L−O)` and spans up to `L` characters, truncated at the end
of the text; empty text yields the empty sequence. -/
def splitFixed (t : String) : List String :=
  if t.toList = [] then []
  else (List.range (numPassages t.toList.length)).map
    (fun i => ((t.toList.drop (800 * i)).take 1000).asString)

/-! ### Interleaved first requests

`route.ts` runs on a single-threaded cooperative event loop: concurrent
requests interleave only at `await` points.  `initializePinecone`
checks `isInitialized` synchronously, then suspends (pdf parsing, the
embedding calls of each batch, each `upsert`) before setting
`isInitialized = true` synchronously after the last batch.  For the
concurrency claim we model one build as a thread whose atomic steps are:
the flag check, one step per batch (the embeddings of a batch touch no
shared state, so a batch collapses to its `upsert`, the only shared-state
write), and the final flag set.  All collaborator calls succeed here
(the scenario of interest is builds that complete), so the embedding
service is a pure function `embedv`. -/

/-- Canonical records for a batch starting at global ordinal `start`, as
built inside the batching loop. -/
def mkRecs (embedv : String → Vec) : Nat → List String → List VectorRecord
  | _, [] => []
  | start, c :: rest => ⟨chunkId start, embedv c, c⟩ :: mkRecs embedv (start + 1) rest

/-- The store contents one completed build produces. -/
def canonStore (chunks : List String) (embedv : String → Vec) : Store :=
  mkRecs embedv 0 chunks

/-- Program counter of one request performing the initialization gate:
about to check the flag, about to process batch `b`, or past the build
(either via the early return or after setting the flag). -/
inductive TPc where
  | start
  | working (b : Nat)
  | done
deriving Repr, DecidableEq

/-- Shared state plus the program counters of `n` concurrent requests;
`upserts` records which thread issued which batch upsert, in order. -/
structure CSys where
  flag : Bool
  store : Store
  pcs : List TPc
  upserts : List (Nat × Nat)
deriving Repr, DecidableEq

/-- One atomic step of thread `t` (no-op on an invalid thread index):
the synchronous flag check (`if (isInitialized) return`), the upsert of
batch `b` when `100·b < chunks.length` (the loop condition `i < n` with
`i = 100·b`), or setting `isInitialized = true` once the loop is done. -/
def cstep (chunks : List String) (embedv : String → Vec) (sys : CSys) (t : Nat) : CSys :=
  match sys.pcs[t]? with
  | none => sys
  | some TPc.done => sys
  | some TPc.start =>
    if sys.flag then { sys with pcs := sys.pcs.set t TPc.done }
    else { sys with pcs := sys.pcs.set t (TPc.working 0) }
  | some (TPc.working b) =>
    if 100 * b < chunks.length then
      let recs := mkRecs embedv (100 * b) ((chunks.drop (100 * b)).take 100)
      { sys with
          store := upsertStore recs sys.store
          upserts := sys.upserts ++ [(t, b)]
          pcs := sys.pcs.set t (TPc.working (b + 1)) }
    else
      { sys with flag := true, pcs := sys.pcs.set t TPc.done }

/-- Run a schedule: at each step the event loop resumes the named thread. -/
def crun (chunks : List String) (embedv : String → Vec) (sched : List Nat) (sys : CSys) : CSys :=
  sched.foldl (cstep chunks embedv) sys

/-- Initial state for `n` fresh concurrent first requests: flag false,
empty store, every thread about to check the flag. -/
def cinit (n : Nat) : CSys :=
  { flag := false, store := [], pcs := List.replicate n TPc.start, upserts := [] }

/-! ### Record-construction lemmas -/

theorem mkRecs_length (embedv : String → Vec) :
    ∀ (start : Nat) (l : List String), (mkRecs embedv start l).length = l.length := by
  intro start l
  induction l generalizing start with
  | nil => rfl
  | cons c rest ih => simp [mkRecs, ih]

theorem mkRecs_take (embedv : String → Vec) :
    ∀ (l : List String) (start k : Nat),
      (mkRecs embedv start l).take k = mkRecs embedv start (l.take k) := by
  intro l
  induction l with
  | nil => intro start k; simp [mkRecs]
  | cons c rest ih =>
    intro start k
    cases k with
    | zero => simp [mkRecs]
    | succ k => simp [mkRecs, ih (start + 1) k]

theorem mkRecs_drop (embedv : String → Vec) :
    ∀ (l : List String) (start k : Nat),
      (mkRecs embedv start l).drop k = mkRecs embedv (start + k) (l.drop k) := by
  intro l
  induction l with
  | nil => intro start k; simp [mkRecs]
  | cons c rest ih =>
    intro start k
    cases k with
    | zero => simp [mkRecs]
    | succ k =>
      have : start + (k + 1) = (start + 1) + k := by omega
      simp [mkRecs, ih (start + 1) k, this]

theorem mkRecs_map_id (embedv : String → Vec) :
    ∀ (l : List String) (start : Nat),
      (mkRecs embedv start l).map VectorRecord.id = (List.range' start l.length).map chunkId := by
  intro l
  induction l with
  | nil => intro start; rfl
  | cons c rest ih =>
    intro start
    simp only [mkRecs, List.map_cons, List.length_cons, List.range']
    rw [ih (start + 1)]

theorem canonStore_length (chunks : List String) (embedv : String → Vec) :
    (canonStore chunks embedv).length = chunks.length :=
  mkRecs_length embedv 0 chunks

theorem canonStore_ids_nodup (chunks : List String) (embedv : String → Vec) :
    ((canonStore chunks embedv).map VectorRecord.id).Nodup := by
  rw [canonStore, mkRecs_map_id]
  exact (List.nodup_range' 0 chunks.length).map chunkId_injective

/-! ### Upsert lemmas

Writing a canonical record into a store that is a canonical prefix either
replaces an identical record (a no-op) or appends the next record of the
prefix; a whole batch therefore extends the prefix, which is the heart of
the idempotent-convergence argument. -/

theorem upsertOne_take_of_lt (canon : Store) (hnd : (canon.map VectorRecord.id).Nodup)
    (a j : Nat) (ha : a < j) (hj : j ≤ canon.length) :
    upsertOne (canon.get ⟨a, by omega⟩) (canon.take j) = canon.take j := by
  have hac : a < canon.length := by omega
  have hat : a < (canon.take j).length := by
    simp only [List.length_take]
    omega
  have hmem : canon.get ⟨a, hac⟩ ∈ canon.take j := by
    have h1 : (canon.take j).get ⟨a, hat⟩ = canon.get ⟨a, hac⟩ := by
      rw [List.get_eq_getElem, List.get_eq_getElem]
      exact List.getElem_take canon
    rw [← h1, List.get_eq_getElem]
    exact List.getElem_mem hat
  have hany : (canon.take j).any (fun x => x.id = (canon.get ⟨a, hac⟩).id) = true := by
    rw [List.any_eq_true]
    exact ⟨canon.get ⟨a, hac⟩, hmem, by simp⟩
  rw [upsertOne, if_pos hany]
  have hrc : canon.get ⟨a, hac⟩ ∈ canon := by
    rw [List.get_eq_getElem]
    exact List.getElem_mem hac
  have hcong : ∀ x ∈ canon.take j,
      (if x.id = (canon.get ⟨a, hac⟩).id then canon.get ⟨a, hac⟩ else x) = id x := by
    intro x hx
    by_cases hid : x.id = (canon.get ⟨a, hac⟩).id
    · rw [if_pos hid]
      have hx2 : x ∈ canon := List.take_subset j canon hx
      exact (List.inj_on_of_nodup_map hnd hx2 hrc hid).symm
    · rw [if_neg hid]
      rfl
  rw [List.map_congr_left hcong, List.map_id]

theorem upsertOne_take_append (canon : Store) (hnd : (canon.map VectorRecord.id).Nodup)
    (j : Nat) (hj : j < canon.length) :
    upsertOne (canon.get ⟨j, hj⟩) (canon.take j) = canon.take (j + 1) := by
  have hcn : canon.Nodup := List.Nodup.of_map _ hnd
  have hrc : canon.get ⟨j, hj⟩ ∈ canon := by
    rw [List.get_eq_getElem]
    exact List.getElem_mem hj
  have hrdrop : canon.get ⟨j, hj⟩ ∈ canon.drop j := by
    rw [List.get_eq_getElem, List.drop_eq_getElem_cons hj]
    exact List.mem_cons_self _ _
  have hdisj : List.Disjoint (canon.take j) (canon.drop j) := by
    apply List.disjoint_of_nodup_append
    rw [List.take_append_drop]
    exact hcn
  have hnotmem : canon.get ⟨j, hj⟩ ∉ canon.take j := fun hmem => hdisj hmem hrdrop
  have hany : (canon.take j).any (fun x => x.id = (canon.get ⟨j, hj⟩).id) = false := by
    rw [List.any_eq_false]
    intro x hx hid
    have hid2 : x.id = (canon.get ⟨j, hj⟩).id := by simpa using hid
    have hxc : x ∈ canon := List.take_subset j canon hx
    have hxr : x = canon.get ⟨j, hj⟩ :=
      List.inj_on_of_nodup_map hnd hxc hrc hid2
    rw [hxr] at hx
    exact hnotmem hx
  rw [upsertOne, if_neg (by rw [hany]; exact Bool.false_ne_true)]
  rw [← List.concat_eq_append, List.get_eq_getElem, List.take_concat_get]

theorem upsertStore_canon_seg (canon : Store) (hnd : (canon.map VectorRecord.id).Nodup) :
    ∀ (k a j : Nat), a ≤ j → j ≤ canon.length →
      upsertStore ((canon.drop a).take k) (canon.take j)
        = canon.take (max j (min (a + k) canon.length)) := by
  intro k
  induction k with
  | zero =>
    intro a j ha hj
    have : max j (min (a + 0) canon.length) = j := by omega
    rw [this]
    simp [upsertStore]
  | succ k ih =>
    intro a j ha hj
    by_cases hac : a < canon.length
    · have hget : canon.drop a = canon.get ⟨a, hac⟩ :: canon.drop (a + 1) := by
        rw [List.get_eq_getElem]
        exact List.drop_eq_getElem_cons hac
      rw [hget, List.take_succ_cons, upsertStore]
      by_cases haj : a < j
      · rw [upsertOne_take_of_lt canon hnd a j haj hj]
        rw [ih (a + 1) j (by omega) hj]
        congr 1
        omega
      · have haj2 : a = j := by omega
        subst haj2
        rw [upsertOne_take_append canon hnd a hac]
        rw [ih (a + 1) (a + 1) (by omega) (by omega)]
        congr 1
        omega
    · have hdrop : canon.drop a = [] := List.drop_eq_nil_of_le (by omega)
      rw [hdrop]
      simp only [List.take_nil]
      have hjn : j = canon.length := by omega
      have : max j (min (a + (k + 1)) canon.length) = j := by omega
      rw [this]
      simp [upsertStore]

/-! ### Batching lemmas -/

theorem batchList_nil : batchList [] = [] := rfl

theorem batchList_cons (l : List String) (h : l ≠ []) :
    batchList l = l.take 100 :: batchList (l.drop 100) := by
  unfold batchList
  have hlen : 1 ≤ l.length := List.length_pos.mpr h
  by_cases h100 : l.length ≤ 100
  · have h1 : (l.length + 99) / 100 = 1 := by omega
    have h2 : ((l.drop 100).length + 99) / 100 = 0 := by
      simp only [List.length_drop]
      omega
    rw [h1, h2]
    simp [List.range_succ]
  · have h1 : (l.length + 99) / 100 = ((l.drop 100).length + 99) / 100 + 1 := by
      simp only [List.length_drop]
      omega
    rw [h1, List.range_succ_eq_map, List.map_cons, List.map_map]
    simp only [Nat.mul_zero, List.drop_zero]
    congr 1
    apply List.map_congr_left
    intro b _
    simp only [Function.comp_apply, List.drop_drop]
    congr 2
    omega

theorem batchList_join (fuel : Nat) :
    ∀ (l : List String), l.length ≤ fuel → (batchList l).flatten = l := by
  induction fuel with
  | zero =>
    intro l hl
    have : l = [] := List.eq_nil_of_length_eq_zero (by omega)
    rw [this, batchList_nil, List.flatten_nil]
  | succ f ih =>
    intro l hl
    by_cases h : l = []
    · rw [h, batchList_nil, List.flatten_nil]
    · rw [batchList_cons l h, List.flatten_cons]
      rw [ih (l.drop 100) (by simp only [List.length_drop]; have := List.length_pos.mpr h; omega)]
      exact List.take_append_drop 100 l

theorem batchList_sizes (l : List String) : ∀ batch ∈ batchList l, batch.length ≤ 100 := by
  intro batch hb
  unfold batchList at hb
  rcases List.mem_map.mp hb with ⟨b, _, rfl⟩
  simp only [List.length_take]
  omega

/-! ### The convergence invariant for interleaved builds

At every reachable state the store is a prefix of the canonical record
list; a thread about to process batch `b` has already secured the prefix
covering batches `0..b-1`; and the flag is only true once the prefix is
the whole list. -/

def Inv (chunks : List String) (embedv : String → Vec) (sys : CSys) : Prop :=
  ∃ j, j ≤ chunks.length ∧ sys.store = (canonStore chunks embedv).take j ∧
    (∀ (t b : Nat), sys.pcs[t]? = some (TPc.working b) → min (100 * b) chunks.length ≤ j) ∧
    (sys.flag = true → j = chunks.length) ∧
    (sys.flag = false → ∃ (t : Nat), ∃ (pc : TPc), sys.pcs[t]? = some pc ∧ pc ≠ TPc.done)

theorem cinit_inv (chunks : List String) (embedv : String → Vec) (n : Nat) (hn : 1 ≤ n) :
    Inv chunks embedv (cinit n) := by
  refine ⟨0, by omega, by simp [cinit], ?_, ?_, ?_⟩
  · intro t b hpc
    simp only [cinit, List.getElem?_replicate] at hpc
    split at hpc
    · cases hpc
    · cases hpc
  · intro hflag
    simp [cinit] at hflag
  · intro _
    refine ⟨0, TPc.start, ?_, by simp⟩
    simp only [cinit, List.getElem?_replicate]
    rw [if_pos (by omega)]

theorem cstep_inv (chunks : List String) (embedv : String → Vec) (sys : CSys) (t : Nat)
    (hinv : Inv chunks embedv sys) : Inv chunks embedv (cstep chunks embedv sys t) := by
  rcases hinv with ⟨j, hj, hst, hwork, hflag, hlive⟩
  cases hpc : sys.pcs[t]? with
  | none =>
    have hceq : cstep chunks embedv sys t = sys := by simp [cstep, hpc]
    rw [hceq]
    exact ⟨j, hj, hst, hwork, hflag, hlive⟩
  | some pc =>
    have htlen : t < sys.pcs.length := by
      rcases List.getElem?_eq_some.mp hpc with ⟨hlt, _⟩
      exact hlt
    cases pc with
    | done =>
      have hceq : cstep chunks embedv sys t = sys := by simp [cstep, hpc]
      rw [hceq]
      exact ⟨j, hj, hst, hwork, hflag, hlive⟩
    | start =>
      cases hfl : sys.flag with
      | true =>
        have hceq : cstep chunks embedv sys t = { sys with pcs := sys.pcs.set t TPc.done } := by
          simp [cstep, hpc, hfl]
        rw [hceq]
        refine ⟨j, hj, hst, ?_, ?_, ?_⟩
        · intro t2 b hpc2
          have hpc3 : (sys.pcs.set t TPc.done)[t2]? = some (TPc.working b) := hpc2
          rw [List.getElem?_set] at hpc3
          by_cases ht2 : t = t2
          · rw [if_pos ht2, if_pos (ht2 ▸ htlen)] at hpc3
            cases hpc3
          · rw [if_neg ht2] at hpc3
            exact hwork t2 b hpc3
        · show sys.flag = true → j = chunks.length
          exact hflag
        · show sys.flag = false → _
          intro hf2
          rw [hfl] at hf2
          cases hf2
      | false =>
        have hceq : cstep chunks embedv sys t
            = { sys with pcs := sys.pcs.set t (TPc.working 0) } := by
          simp [cstep, hpc, hfl]
        rw [hceq]
        refine ⟨j, hj, hst, ?_, ?_, ?_⟩
        · intro t2 b hpc2
          have hpc3 : (sys.pcs.set t (TPc.working 0))[t2]? = some (TPc.working b) := hpc2
          rw [List.getElem?_set] at hpc3
          by_cases ht2 : t = t2
          · rw [if_pos ht2, if_pos (ht2 ▸ htlen)] at hpc3
            have hb : b = 0 := by
              cases hpc3
              rfl
            rw [hb]
            omega
          · rw [if_neg ht2] at hpc3
            exact hwork t2 b hpc3
        · show sys.flag = true → j = chunks.length
          exact hflag
        · show sys.flag = false → _
          intro _
          refine ⟨t, TPc.working 0, ?_, by simp⟩
          show (sys.pcs.set t (TPc.working 0))[t]? = some (TPc.working 0)
          rw [List.getElem?_set, if_pos rfl, if_pos htlen]
    | working b =>
      have hmin := hwork t b hpc
      by_cases hlt : 100 * b < chunks.length
      · have hceq : cstep chunks embedv sys t
            = { sys with
                  store := upsertStore
                    (mkRecs embedv (100 * b) ((chunks.drop (100 * b)).take 100)) sys.store
                  upserts := sys.upserts ++ [(t, b)]
                  pcs := sys.pcs.set t (TPc.working (b + 1)) } := by
          simp [cstep, hpc, hlt]
        rw [hceq]
        have hjge : 100 * b ≤ j := by omega
        have hrecs : mkRecs embedv (100 * b) ((chunks.drop (100 * b)).take 100)
            = ((canonStore chunks embedv).drop (100 * b)).take 100 := by
          rw [canonStore, mkRecs_drop embedv chunks 0 (100 * b), mkRecs_take]
          norm_num
        refine ⟨max j (min (100 * b + 100) chunks.length), by omega, ?_, ?_, ?_, ?_⟩
        · show upsertStore (mkRecs embedv (100 * b) ((chunks.drop (100 * b)).take 100)) sys.store
            = _
          rw [hst, hrecs]
          rw [upsertStore_canon_seg (canonStore chunks embedv)
            (canonStore_ids_nodup chunks embedv) 100 (100 * b) j hjge
            (by rw [canonStore_length]; omega)]
          rw [canonStore_length]
        · intro t2 b2 hpc2
          have hpc3 : (sys.pcs.set t (TPc.working (b + 1)))[t2]? = some (TPc.working b2) := hpc2
          rw [List.getElem?_set] at hpc3
          by_cases ht2 : t = t2
          · rw [if_pos ht2, if_pos (ht2 ▸ htlen)] at hpc3
            have hb : b2 = b + 1 := by
              cases hpc3
              rfl
            rw [hb]
            omega
          · rw [if_neg ht2] at hpc3
            have := hwork t2 b2 hpc3
            omega
        · show sys.flag = true → _
          intro hfl
          have := hflag hfl
          omega
        · show sys.flag = false → _
          intro _
          refine ⟨t, TPc.working (b + 1), ?_, by simp⟩
          show (sys.pcs.set t (TPc.working (b + 1)))[t]? = some (TPc.working (b + 1))
          rw [List.getElem?_set, if_pos rfl, if_pos htlen]
      · have hceq : cstep chunks embedv sys t
            = { sys with flag := true, pcs := sys.pcs.set t TPc.done } := by
          simp [cstep, hpc, hlt]
        rw [hceq]
        have hjn : j = chunks.length := by omega
        refine ⟨j, hj, hst, ?_, fun _ => hjn, ?_⟩
        · intro t2 b2 hpc2
          have hpc3 : (sys.pcs.set t TPc.done)[t2]? = some (TPc.working b2) := hpc2
          rw [List.getElem?_set] at hpc3
          by_cases ht2 : t = t2
          · rw [if_pos ht2, if_pos (ht2 ▸ htlen)] at hpc3
            cases hpc3
          · rw [if_neg ht2] at hpc3
            exact hwork t2 b2 hpc3
        · show true = false → _
          intro hf2
          cases hf2

theorem crun_inv (chunks : List String) (embedv : String → Vec) (sched : List Nat) (sys : CSys)
    (hinv : Inv chunks embedv sys) : Inv chunks embedv (crun chunks embedv sched sys) := by
  induction sched generalizing sys with
  | nil => exact hinv
  | cons t rest ih => exact ih _ (cstep_inv chunks embedv sys t hinv)

theorem crun_all_done_store (chunks : List String) (embedv : String → Vec)
    (n : Nat) (sched : List Nat) (hn : 1 ≤ n)
    (hdone : ∀ pc ∈ (crun chunks embedv sched (cinit n)).pcs, pc = TPc.done) :
    (crun chunks embedv sched (cinit n)).store = canonStore chunks embedv := by
  rcases crun_inv chunks embedv sched (cinit n) (cinit_inv chunks embedv n hn)
    with ⟨j, hj, hst, hwork, hflag, hlive⟩
  cases hfl : (crun chunks embedv sched (cinit n)).flag with
  | false =>
    rcases hlive hfl with ⟨t, pc, hpc, hne⟩
    exact absurd (hdone pc (List.getElem?_mem hpc)) hne
  | true =>
    rw [hst, hflag hfl]
    exact List.take_of_length_le (by rw [canonStore_length])

/-! ### Trace lemmas for the deterministic build -/

/-- The batches of records passed to `index.upsert`, in call order. -/
def upsertEvents : List Event → List (List VectorRecord)
  | [] => []
  | Event.upsert recs :: rest => recs :: upsertEvents rest
  | Event.extract :: rest => upsertEvents rest
  | Event.embed _ :: rest => upsertEvents rest
  | Event.queryStore _ _ :: rest => upsertEvents rest
  | Event.complete _ _ :: rest => upsertEvents rest

theorem upsertEvents_append (a : List Event) :
    ∀ b : List Event, upsertEvents (a ++ b) = upsertEvents a ++ upsertEvents b := by
  induction a with
  | nil => intro b; rfl
  | cons e rest ih =>
    intro b
    cases e <;> simp [upsertEvents, ih b]

/-- Expected (identifier, metadata text) pairs for consecutive passages
from global ordinal `start` on. -/
def ordPairs : Nat → List String → List (String × String)
  | _, [] => []
  | start, c :: rest => (chunkId start, c) :: ordPairs (start + 1) rest

/-- Expected per-batch (identifier, metadata text) pairs from batch
number `b` on; batch `b` starts at global ordinal `100·b`. -/
def batchesPairsFrom : Nat → List (List String) → List (List (String × String))
  | _, [] => []
  | b, batch :: rest => ordPairs (100 * b) batch :: batchesPairsFrom (b + 1) rest

theorem upsertEvents_embeds (l : List String) : upsertEvents (l.map Event.embed) = [] := by
  induction l with
  | nil => rfl
  | cons c rest ih => simp [upsertEvents, ih]

theorem ordPairs_append :
    ∀ (l1 l2 : List String) (s : Nat),
      ordPairs s (l1 ++ l2) = ordPairs s l1 ++ ordPairs (s + l1.length) l2 := by
  intro l1
  induction l1 with
  | nil => intro l2 s; simp [ordPairs]
  | cons c rest ih =>
    intro l2 s
    have : s + (rest.length + 1) = (s + 1) + rest.length := by omega
    simp [ordPairs, ih l2 (s + 1), List.length_cons, this]

theorem embedRecords_ok_pairs (env : Env) :
    ∀ (batch : List String) (start : Nat) (recs : List VectorRecord),
      embedRecords env start batch = .ok recs →
      recs.map (fun r => (r.id, r.metadataText)) = ordPairs start batch := by
  intro batch
  induction batch with
  | nil =>
    intro start recs h
    rw [embedRecords] at h
    cases h
    rfl
  | cons c rest ih =>
    intro start recs h
    rw [embedRecords] at h
    cases henv : env.embedFn c with
    | error e => rw [henv] at h; cases h
    | ok v =>
      rw [henv] at h
      cases hrec : embedRecords env (start + 1) rest with
      | error e => rw [hrec] at h; cases h
      | ok recs0 =>
        rw [hrec] at h
        cases h
        simp only [List.map_cons, ordPairs]
        rw [ih (start + 1) recs0 hrec]

theorem runBatches_ok_pairs (env : Env) :
    ∀ (bs : List (List String)) (b : Nat) (st : Store),
      (runBatches env b bs st).2.2 = .ok () →
      (upsertEvents (runBatches env b bs st).1).map
          (fun recs => recs.map (fun r => (r.id, r.metadataText)))
        = batchesPairsFrom b bs := by
  intro bs
  induction bs with
  | nil =>
    intro b st _
    rfl
  | cons batch rest ih =>
    intro b st hok
    rw [runBatches] at hok ⊢
    revert hok
    cases hemb : embedRecords env (100 * b) batch with
    | error e =>
      intro hok
      dsimp only at hok
      cases hok
    | ok recs =>
      intro hok
      dsimp only at hok ⊢
      revert hok
      cases hup : env.upsertFn b with
      | error e =>
        intro hok
        dsimp only at hok
        cases hok
      | ok u =>
        intro hok
        dsimp only at hok ⊢
        rw [upsertEvents_append, upsertEvents_append, upsertEvents_embeds]
        have h1 : upsertEvents [Event.upsert recs] = [recs] := rfl
        rw [h1, batchesPairsFrom]
        simp only [List.nil_append, List.singleton_append, List.map_cons]
        rw [embedRecords_ok_pairs env batch (100 * b) recs hemb]
        rw [ih (b + 1) (upsertStore recs st) hok]

theorem batchesPairsFrom_flatten (fuel : Nat) :
    ∀ (l : List String) (b : Nat), l.length ≤ fuel →
      (batchesPairsFrom b (batchList l)).flatten = ordPairs (100 * b) l := by
  induction fuel with
  | zero =>
    intro l b hl
    have : l = [] := List.eq_nil_of_length_eq_zero (by omega)
    rw [this, batchList_nil]
    rfl
  | succ f ih =>
    intro l b hl
    by_cases h : l = []
    · rw [h, batchList_nil]
      rfl
    · rw [batchList_cons l h, batchesPairsFrom, List.flatten_cons]
      rw [ih (l.drop 100) (b + 1)
        (by simp only [List.length_drop]; have := List.length_pos.mpr h; omega)]
      by_cases h100 : l.length ≤ 100
      · have hdrop : l.drop 100 = [] := List.drop_eq_nil_of_le h100
        have htake : l.take 100 = l := List.take_of_length_le h100
        rw [hdrop, htake]
        simp [ordPairs]
      · have hlen : (l.take 100).length = 100 := by
          simp only [List.length_take]
          omega
        conv_rhs => rw [← List.take_append_drop 100 l]
        rw [ordPairs_append, hlen]
        rw [show 100 * (b + 1) = 100 * b + 100 by omega]

/-! ### Frame lemmas for the request handler -/

theorem POST_state (env : Env) (s : PineState) :
    (POST env s).2.1 = (initializePinecone env s).2.1 := by
  simp only [POST]
  cases (initializePinecone env s).2.2 with
  | error e => rfl
  | ok u =>
    dsimp only
    cases env.jsonQuery with
    | error e => rfl
    | ok query =>
      dsimp only
      cases env.embedFn query with
      | error e => rfl
      | ok qv =>
        dsimp only
        cases env.storeQuery qv 5 with
        | error e => rfl
        | ok found =>
          dsimp only
          cases env.completeFn (systemIntro ++ interpolate (contextOf found)) query with
          | error e => rfl
          | ok ans => rfl

theorem POST_error_shape (env : Env) (s : PineState) (m : String) (k : Nat)
    (h : (POST env s).2.2 = PostResponse.errorResp m k) :
    k = 500 ∧ ∃ e, m = "Failed to process request: " ++ e := by
  simp only [POST] at h
  revert h
  cases (initializePinecone env s).2.2 with
  | error e => intro h; cases h; exact ⟨rfl, e, rfl⟩
  | ok u =>
    intro h
    dsimp only at h
    revert h
    cases env.jsonQuery with
    | error e => intro h; cases h; exact ⟨rfl, e, rfl⟩
    | ok query =>
      intro h
      dsimp only at h
      revert h
      cases env.embedFn query with
      | error e => intro h; cases h; exact ⟨rfl, e, rfl⟩
      | ok qv =>
        intro h
        dsimp only at h
        revert h
        cases env.storeQuery qv 5 with
        | error e => intro h; cases h; exact ⟨rfl, e, rfl⟩
        | ok found =>
          intro h
          dsimp only at h
          revert h
          cases env.completeFn (systemIntro ++ interpolate (contextOf found)) query with
          | error e => intro h; cases h; exact ⟨rfl, e, rfl⟩
          | ok ans => intro h; cases h

theorem mkRecs_pairs (embedv : String → Vec) :
    ∀ (l : List String) (start : Nat),
      (mkRecs embedv start l).map (fun r => (r.id, r.metadataText)) = ordPairs start l := by
  intro l
  induction l with
  | nil => intro start; rfl
  | cons c rest ih =>
    intro start
    simp only [mkRecs, List.map_cons, ordPairs]
    rw [ih (start + 1)]

/-- Outcome of a build attempt that starts un-initialized and fails:
the flag is untouched and the error message wraps the cause. -/
theorem initializePinecone_error (env : Env) (s : PineState) (h : s.isInitialized = false)
    (tr : List Event) (s1 : PineState) (m : String)
    (hrun : initializePinecone env s = (tr, s1, .error m)) :
    s1.isInitialized = false ∧ ∃ e, m = "Initialization failed: " ++ e := by
  unfold initializePinecone at hrun
  rw [if_neg (by simp [h])] at hrun
  dsimp only at hrun
  revert hrun
  cases hpr : (processPDF env).2 with
  | error e =>
    intro hrun
    dsimp only at hrun
    cases hrun
    exact ⟨h, e, rfl⟩
  | ok text =>
    intro hrun
    dsimp only at hrun
    revert hrun
    cases hrb : (runBatches env 0 (batchList (env.split text)) s.store).2.2 with
    | error e =>
      intro hrun
      dsimp only at hrun
      cases hrun
      exact ⟨h, e, rfl⟩
    | ok u =>
      intro hrun
      dsimp only at hrun
      cases hrun

/-- Outcome of a build attempt that starts un-initialized and succeeds:
the flag is set, and the upsert calls carried exactly the batches of
ordinal-identified passages. -/
theorem initializePinecone_ok_upserts (env : Env) (s : PineState) (h : s.isInitialized = false)
    (tr : List Event) (s1 : PineState)
    (hrun : initializePinecone env s = (tr, s1, .ok ())) :
    ∃ text, (processPDF env).2 = .ok text ∧
      s1.isInitialized = true ∧
      (upsertEvents tr).map (fun recs => recs.map (fun r => (r.id, r.metadataText)))
        = batchesPairsFrom 0 (batchList (env.split text)) := by
  unfold initializePinecone at hrun
  rw [if_neg (by simp [h])] at hrun
  dsimp only at hrun
  revert hrun
  cases hpr : (processPDF env).2 with
  | error e =>
    intro hrun
    dsimp only at hrun
    cases hrun
  | ok text =>
    intro hrun
    dsimp only at hrun
    revert hrun
    cases hrb : (runBatches env 0 (batchList (env.split text)) s.store).2.2 with
    | error e =>
      intro hrun
      dsimp only at hrun
      cases hrun
    | ok u =>
      intro hrun
      dsimp only at hrun
      cases hrun
      refine ⟨text, rfl, rfl, ?_⟩
      have hp1 : (processPDF env).1 = [Event.extract] := rfl
      rw [hp1, upsertEvents_append]
      have h2 : upsertEvents [Event.extract] = [] := rfl
      rw [h2, List.nil_append]
      exact runBatches_ok_pairs env (batchList (env.split text)) 0 s.store hrb

/-! ### Concrete environments for witnesses and counterexamples -/

/-- Environment in which every collaborator succeeds: a one-passage
document, constant embeddings, one stored match, a fixed answer. -/
def okEnv : Env where
  pdfParse := .ok (some "doc")
  split := fun t => [t]
  embedFn := fun _ => .ok [1]
  upsertFn := fun _ => .ok ()
  jsonQuery := .ok "what is alpha?"
  storeQuery := fun _ _ => .ok (some [⟨"chunk_0", some "doc"⟩])
  completeFn := fun _ _ => .ok "the answer"

/-- Environment whose request body carries an empty query. -/
def emptyQueryEnv : Env := { okEnv with jsonQuery := .ok "" }

/-- Environment where the pdf text is whitespace (so extraction
succeeds) but the splitter returns no chunks, as the langchain splitter
does on whitespace-only text. -/
def emptySplitEnv : Env :=
  { okEnv with
    pdfParse := .ok (some " ")
    split := fun _ => [] }

/-- Environment where the build succeeds but embedding the query fails. -/
def queryEmbedFailEnv : Env :=
  { okEnv with
    jsonQuery := .ok "q"
    embedFn := fun t => if t = "q" then .error "boom" else .ok [1] }

/-- Environment where the store query fails (Scenario D). -/
def storeQueryFailEnv : Env :=
  { okEnv with storeQuery := fun _ _ => .error "down" }

/-- Environment where the store query returns an empty match list. -/
def noMatchEnv : Env := { okEnv with storeQuery := fun _ _ => .ok (some []) }

/-! ### The claims -/

/-- C1: starting with Index Readiness State false, a build that fails at
any step leaves the flag false and propagates an error whose message
wraps the underlying cause; a build that returns successfully has set
the flag to true and has issued upserts covering every passage, keyed by
its global ordinal, so the flag is set only after every batch was
embedded and upserted without error. -/
theorem build_failure_keeps_flag_false_and_wraps_error (env : Env) (s : PineState)
    (h : s.isInitialized = false) (tr : List Event) (s1 : PineState)
    (res : Except String Unit) (hrun : initializePinecone env s = (tr, s1, res)) :
    (∀ m, res = .error m →
      s1.isInitialized = false ∧ ∃ e, m = "Initialization failed: " ++ e) ∧
    (res = .ok () → s1.isInitialized = true ∧
      ∃ text, (processPDF env).2 = .ok text ∧
        ((upsertEvents tr).flatten).map (fun r => (r.id, r.metadataText))
          = ordPairs 0 (env.split text)) := by
  constructor
  · intro m hm
    exact initializePinecone_error env s h tr s1 m (by rw [hrun, hm])
  · intro hok
    rcases initializePinecone_ok_upserts env s h tr s1 (by rw [hrun, hok]) with
      ⟨text, hpr, hflag, hpairs⟩
    refine ⟨hflag, text, hpr, ?_⟩
    rw [List.map_flatten, hpairs,
      batchesPairsFrom_flatten (env.split text).length (env.split text) 0 le_rfl]

/-- Witness for C1 at a concrete environment: the state starts
un-initialized and the successful build sets the flag. -/
theorem build_failure_keeps_flag_false_and_wraps_error_witness :
    (⟨false, []⟩ : PineState).isInitialized = false ∧
    ((initializePinecone okEnv ⟨false, []⟩).2.1).isInitialized = true := by
  refine ⟨rfl, ?_⟩
  exact (build_failure_keeps_flag_false_and_wraps_error okEnv ⟨false, []⟩ rfl
    (initializePinecone okEnv ⟨false, []⟩).1
    (initializePinecone okEnv ⟨false, []⟩).2.1
    (initializePinecone okEnv ⟨false, []⟩).2.2 rfl).2 rfl |>.1

/-- C5 (code bug): when splitting yields an empty passage sequence, the
build does not fail with a `SplitError` as specified — it runs zero
batches, completes successfully, and sets the readiness flag to true
with nothing indexed. -/
theorem empty_split_completes_build_and_sets_flag :
    initializePinecone emptySplitEnv ⟨false, []⟩ = ([Event.extract], ⟨true, []⟩, .ok ()) ∧
    upsertEvents (initializePinecone emptySplitEnv ⟨false, []⟩).1 = [] := ⟨rfl, rfl⟩

/-- C6: once the readiness flag is true, a further build invocation is a
pure no-op — same state, empty event trace, success — and the handler
never resets the flag to false. -/
theorem ready_flag_noop_and_monotone (env : Env) (s : PineState)
    (h : s.isInitialized = true) :
    initializePinecone env s = ([], s, .ok ()) ∧
    ((POST env s).2.1).isInitialized = true := by
  have h1 : initializePinecone env s = ([], s, .ok ()) := by
    unfold initializePinecone
    rw [if_pos h]
  refine ⟨h1, ?_⟩
  rw [POST_state, h1]
  exact h

/-- Witness for C6 at a concrete environment. -/
theorem ready_flag_noop_and_monotone_witness :
    initializePinecone okEnv ⟨true, []⟩ = ([], ⟨true, []⟩, .ok ()) :=
  (ready_flag_noop_and_monotone okEnv ⟨true, []⟩ rfl).1

/-- C7: the build partitions the passages into consecutive batches of at
most 100, processes them sequentially (the upsert trace lists one batch
after the other in order), and the record at global ordinal `n` carries
identifier `chunk_n` and the passage text as metadata. -/
theorem build_batches_bounded_sequential_ordinal_ids (env : Env) (s : PineState)
    (h : s.isInitialized = false) (tr : List Event) (s1 : PineState) (text : String)
    (hpr : (processPDF env).2 = .ok text)
    (hrun : initializePinecone env s = (tr, s1, .ok ())) :
    (∀ batch ∈ batchList (env.split text), batch.length ≤ 100) ∧
    (batchList (env.split text)).flatten = env.split text ∧
    (upsertEvents tr).map (fun recs => recs.map (fun r => (r.id, r.metadataText)))
      = batchesPairsFrom 0 (batchList (env.split text)) := by
  rcases initializePinecone_ok_upserts env s h tr s1 hrun with ⟨text2, hpr2, _, hpairs⟩
  have htext : text2 = text := by
    rw [hpr] at hpr2
    exact (Except.ok.inj hpr2).symm
  subst htext
  exact ⟨batchList_sizes (env.split text2),
    batchList_join (env.split text2).length (env.split text2) le_rfl, hpairs⟩

/-- Witness for C7 at a concrete environment with one passage. -/
theorem build_batches_bounded_sequential_ordinal_ids_witness :
    (batchList (okEnv.split "doc")).flatten = okEnv.split "doc" :=
  (build_batches_bounded_sequential_ordinal_ids okEnv ⟨false, []⟩ rfl
    (initializePinecone okEnv ⟨false, []⟩).1
    (initializePinecone okEnv ⟨false, []⟩).2.1 "doc" rfl rfl).2.1

/-- C2 counterexample: with two concurrent first requests and no guard
beyond the synchronous flag check, the event-loop schedule in which both
requests pass the check before either finishes makes both of them issue
their upsert calls — two sets of upsert calls, not exactly one — even
though both requests run to completion. -/
theorem two_first_requests_both_upsert :
    (crun ["alpha", "beta"] (fun _ => [1]) [0, 1, 0, 1, 0, 1] (cinit 2)).upserts
      = [(0, 0), (1, 0)] ∧
    (∀ pc ∈ (crun ["alpha", "beta"] (fun _ => [1]) [0, 1, 0, 1, 0, 1] (cinit 2)).pcs,
      pc = TPc.done) := by
  constructor
  · decide
  · decide

/-- C2 (amended): N concurrent first requests may each complete a build
and issue their own upsert calls, but because the writes are upserts
keyed by ordinal-derived identifiers, under every schedule in which all
requests resolve the store ends up with exactly one record per passage:
the canonical store, whose identifiers are pairwise distinct and pair
each `chunk_n` with passage `n`. -/
theorem concurrent_first_requests_converge (chunks : List String) (embedv : String → Vec)
    (n : Nat) (sched : List Nat) (hn : 1 ≤ n)
    (hdone : ∀ pc ∈ (crun chunks embedv sched (cinit n)).pcs, pc = TPc.done) :
    (crun chunks embedv sched (cinit n)).store = canonStore chunks embedv ∧
    (canonStore chunks embedv).map (fun r => (r.id, r.metadataText)) = ordPairs 0 chunks ∧
    ((canonStore chunks embedv).map VectorRecord.id).Nodup :=
  ⟨crun_all_done_store chunks embedv n sched hn hdone,
    mkRecs_pairs embedv chunks 0, canonStore_ids_nodup chunks embedv⟩

/-- Witness for the amended C2 at a concrete run: one thread builds a
one-passage document to completion. -/
theorem concurrent_first_requests_converge_witness :
    (crun ["a"] (fun _ => [1]) [0, 0, 0] (cinit 1)).store = canonStore ["a"] (fun _ => [1]) :=
  (concurrent_first_requests_converge ["a"] (fun _ => [1]) 1 [0, 0, 0] (by decide)
    (by decide)).1

/-- C3 (code bug): the handler performs no validation of the query: a
request whose query is the empty string is not rejected with a client
error — the empty query is passed to the embedding step and, when the
services succeed, the request is answered. -/
theorem empty_query_reaches_embedding :
    Event.embed "" ∈ (POST emptyQueryEnv ⟨true, []⟩).1 ∧
    (POST emptyQueryEnv ⟨true, []⟩).2.2 = PostResponse.answer "the answer" := by
  constructor
  · have htr : (POST emptyQueryEnv ⟨true, []⟩).1
        = [Event.embed "", Event.queryStore [1] 5,
            Event.complete (systemIntro ++ "doc") ""] := rfl
    rw [htr]
    exact List.mem_cons_self _ _
  · rfl

/-- C4 counterexample: the empty text is shorter than `L = 1000` yet
yields zero passages, not exactly one. -/
theorem empty_text_splits_to_no_passage :
    ("" : String).toList.length < 1000 ∧ (splitFixed "").length ≠ 1 := by
  constructor
  · decide
  · decide

/-- C4 (amended): for `L = 1000`, `O = 200`, passage `i` of the splitter
output is exactly the slice starting at character `i·(L−O) = 800·i`
spanning up to `L = 1000` characters truncated at the end of the text;
every character position of the input is covered by some passage (no
gaps); a nonempty text of at most `L` characters yields exactly one
passage, the text itself; the empty text yields the empty sequence. -/
theorem splitFixed_stride_coverage (t : String) :
    (∀ (i : Nat) (h : i < (splitFixed t).length),
      (splitFixed t).get ⟨i, h⟩ = ((t.toList.drop (800 * i)).take 1000).asString) ∧
    (∀ j, j < t.toList.length → ∃ (i : Nat) (h : i < (splitFixed t).length),
      800 * i ≤ j ∧ j < 800 * i + ((splitFixed t).get ⟨i, h⟩).toList.length) ∧
    (t.toList ≠ [] → t.toList.length ≤ 1000 → splitFixed t = [t]) ∧
    (t.toList = [] → splitFixed t = []) := by
  by_cases he : t.toList = []
  · refine ⟨?_, ?_, ?_, ?_⟩
    · intro i h
      rw [splitFixed, if_pos he] at h
      simp at h
    · intro j hj
      rw [he] at hj
      simp at hj
    · intro hne _
      exact absurd he hne
    · intro _
      rw [splitFixed, if_pos he]
  · have hlen0 : 0 < t.toList.length := List.length_pos.mpr he
    have hsf : splitFixed t = (List.range (numPassages t.toList.length)).map
        (fun i => ((t.toList.drop (800 * i)).take 1000).asString) := by
      rw [splitFixed, if_neg he]
    have hslen : (splitFixed t).length = numPassages t.toList.length := by
      rw [hsf, List.length_map, List.length_range]
    have hget : ∀ (i : Nat) (h : i < (splitFixed t).length),
        (splitFixed t).get ⟨i, h⟩ = ((t.toList.drop (800 * i)).take 1000).asString := by
      intro i h
      rw [List.get_eq_getElem]
      simp only [hsf, List.getElem_map, List.getElem_range]
    refine ⟨hget, ?_, ?_, fun habs => absurd habs he⟩
    · intro j hj
      set len := t.toList.length with hlendef
      have hcover : ∃ i, i < numPassages len ∧ 800 * i ≤ j ∧ j < 800 * i + min 1000 (len - 800 * i) := by
        by_cases hsmall : len ≤ 1000
        · refine ⟨0, ?_, by omega, ?_⟩
          · rw [numPassages, if_pos hsmall]
            omega
          · simp only [Nat.mul_zero, Nat.sub_zero]
            omega
        · have hq1 := Nat.div_add_mod (len - 201) 800
          have hq2 : (len - 201) % 800 < 800 := Nat.mod_lt _ (by omega)
          have hj1 := Nat.div_add_mod j 800
          have hj2 : j % 800 < 800 := Nat.mod_lt _ (by omega)
          have hnum : numPassages len = 1 + (len - 1000 + 799) / 800 := by
            rw [numPassages, if_neg hsmall]
          have hnum2 : len - 1000 + 799 = len - 201 := by omega
          rw [hnum2] at hnum
          by_cases hcase : j / 800 ≤ (len - 201) / 800
          · refine ⟨j / 800, by omega, by omega, ?_⟩
            omega
          · refine ⟨(len - 201) / 800, by omega, by omega, ?_⟩
            omega
      rcases hcover with ⟨i, hi, hle, hlt⟩
      have hib : i < (splitFixed t).length := by
        rw [hslen]
        exact hi
      refine ⟨i, hib, hle, ?_⟩
      rw [hget i hib]
      have : (((t.toList.drop (800 * i)).take 1000).asString).toList
          = (t.toList.drop (800 * i)).take 1000 := rfl
      rw [this, List.length_take, List.length_drop]
      omega
    · intro _ hsmall
      rw [hsf]
      have hnum : numPassages t.toList.length = 1 := by
        rw [numPassages, if_pos hsmall]
      rw [hnum]
      have hr1 : List.range 1 = [0] := rfl
      rw [hr1, List.map_cons, List.map_nil]
      have hfin : ((t.toList.drop (800 * 0)).take 1000).asString = t := by
        rw [Nat.mul_zero, List.drop_zero, List.take_of_length_le hsmall]
        rfl
      rw [hfin]

/-- Witness for the amended C4: a two-character text yields itself as
the single passage. -/
theorem splitFixed_stride_coverage_witness : splitFixed "ab" = ["ab"] :=
  (splitFixed_stride_coverage "ab").2.2.1 (by decide) (by decide)

/-- C8: on the success path the responder queries the store with
`topK = 5` and submits to the completion service a system message whose
context is exactly the retrieved texts joined by newlines in the rank
order returned by the store — no re-ranking, no deduplication, no
truncation — returning the completion answer. -/
theorem responder_top5_context_rank_order (env : Env) (s : PineState)
    (tr0 : List Event) (s1 : PineState) (q : String) (qv : Vec)
    (ms : List QueryMatch) (ans : String)
    (hini : initializePinecone env s = (tr0, s1, .ok ()))
    (hq : env.jsonQuery = .ok q) (hqv : env.embedFn q = .ok qv)
    (hms : env.storeQuery qv 5 = .ok (some ms))
    (hans : env.completeFn (systemIntro
      ++ String.intercalate "\n" (ms.map (fun m => m.metadataText.getD ""))) q = .ok ans) :
    POST env s = (tr0 ++ [Event.embed q, Event.queryStore qv 5,
      Event.complete (systemIntro
        ++ String.intercalate "\n" (ms.map (fun m => m.metadataText.getD ""))) q],
      s1, PostResponse.answer ans) := by
  have hctx : systemIntro ++ interpolate (contextOf (some ms))
      = systemIntro ++ String.intercalate "\n" (ms.map (fun m => m.metadataText.getD "")) := rfl
  unfold POST
  rw [hini]
  dsimp only
  rw [hq]
  dsimp only
  rw [hqv]
  dsimp only
  rw [hms]
  dsimp only
  rw [hctx, hans]

/-- Witness for C8 at a concrete environment with one stored match. -/
theorem responder_top5_context_rank_order_witness :
    POST okEnv ⟨true, []⟩ = ([] ++ [Event.embed "what is alpha?", Event.queryStore [1] 5,
      Event.complete (systemIntro
        ++ String.intercalate "\n" ([QueryMatch.mk "chunk_0" (some "doc")].map
          (fun m => m.metadataText.getD ""))) "what is alpha?"],
      ⟨true, []⟩, PostResponse.answer "the answer") :=
  responder_top5_context_rank_order okEnv ⟨true, []⟩ [] ⟨true, []⟩ "what is alpha?" [1]
    [QueryMatch.mk "chunk_0" (some "doc")] "the answer" rfl rfl rfl rfl rfl

/-- C9 counterexample: a request that races the first build — the build
succeeds inside the request and then the query embedding fails — returns
the error response, but the Index Readiness State after the request is
true although it was false before the request, contradicting the claim
that it is left exactly as it was. -/
theorem query_failure_after_first_build_changes_flag :
    (POST queryEmbedFailEnv ⟨false, []⟩).2.2
      = PostResponse.errorResp "Failed to process request: boom" 500 ∧
    ((POST queryEmbedFailEnv ⟨false, []⟩).2.1).isInitialized = true ∧
    (⟨false, []⟩ : PineState).isInitialized = false := ⟨rfl, rfl, rfl⟩

/-- C9 (amended): the handler leaves the Index Readiness State exactly
as the initialization step left it — query-path steps never modify it;
every error response it produces has status 500 and a body whose message
wraps the underlying cause; and a failure of any of the three query-path
steps — the query embedding, the Vector Store query, or the completion —
yields exactly that error response (so no answer), with the
post-initialization state unchanged. -/
theorem query_path_failure_error_shape_and_frame (env : Env) (s : PineState) :
    ((POST env s).2.1 = (initializePinecone env s).2.1) ∧
    (∀ m k, (POST env s).2.2 = PostResponse.errorResp m k →
      k = 500 ∧ ∃ e, m = "Failed to process request: " ++ e) ∧
    (∀ tr0 s1 q e, initializePinecone env s = (tr0, s1, .ok ()) →
      env.jsonQuery = .ok q → env.embedFn q = .error e →
      POST env s = (tr0 ++ [Event.embed q], s1,
        PostResponse.errorResp ("Failed to process request: " ++ e) 500)) ∧
    (∀ tr0 s1 q qv e, initializePinecone env s = (tr0, s1, .ok ()) →
      env.jsonQuery = .ok q → env.embedFn q = .ok qv → env.storeQuery qv 5 = .error e →
      POST env s = (tr0 ++ [Event.embed q, Event.queryStore qv 5], s1,
        PostResponse.errorResp ("Failed to process request: " ++ e) 500)) ∧
    (∀ tr0 s1 q qv mopt e, initializePinecone env s = (tr0, s1, .ok ()) →
      env.jsonQuery = .ok q → env.embedFn q = .ok qv → env.storeQuery qv 5 = .ok mopt →
      env.completeFn (systemIntro ++ interpolate (contextOf mopt)) q = .error e →
      POST env s = (tr0 ++ [Event.embed q, Event.queryStore qv 5,
        Event.complete (systemIntro ++ interpolate (contextOf mopt)) q], s1,
        PostResponse.errorResp ("Failed to process request: " ++ e) 500)) := by
  refine ⟨POST_state env s, fun m k h => POST_error_shape env s m k h, ?_, ?_, ?_⟩
  · intro tr0 s1 q e hini hq hqe
    unfold POST
    rw [hini]
    dsimp only
    rw [hq]
    dsimp only
    rw [hqe]
  · intro tr0 s1 q qv e hini hq hqv hsq
    unfold POST
    rw [hini]
    dsimp only
    rw [hq]
    dsimp only
    rw [hqv]
    dsimp only
    rw [hsq]
  · intro tr0 s1 q qv mopt e hini hq hqv hms hce
    unfold POST
    rw [hini]
    dsimp only
    rw [hq]
    dsimp only
    rw [hqv]
    dsimp only
    rw [hms]
    dsimp only
    rw [hce]

/-- Witness for the amended C9: Scenario D at a concrete environment
whose store query fails transiently. -/
theorem query_path_failure_error_shape_and_frame_witness :
    POST storeQueryFailEnv ⟨true, []⟩ = ([] ++ [Event.embed "what is alpha?",
      Event.queryStore [1] 5], ⟨true, []⟩,
      PostResponse.errorResp ("Failed to process request: " ++ "down") 500) :=
  (query_path_failure_error_shape_and_frame storeQueryFailEnv ⟨true, []⟩).2.2.2.1
    [] ⟨true, []⟩ "what is alpha?" [1] "down" rfl rfl rfl rfl

/-- C10: when the store query succeeds with an undefined or empty match
list, the handler does not fail: the context is undefined (interpolated
as the string `undefined`) or empty, the completion request is still
submitted, and the handler returns an answer response. -/
theorem no_matches_still_answers (env : Env) (s : PineState)
    (tr0 : List Event) (s1 : PineState) (q : String) (qv : Vec)
    (mopt : Option (List QueryMatch)) (ans : String)
    (hini : initializePinecone env s = (tr0, s1, .ok ()))
    (hq : env.jsonQuery = .ok q) (hqv : env.embedFn q = .ok qv)
    (hms : env.storeQuery qv 5 = .ok mopt)
    (hempty : mopt = none ∨ mopt = some [])
    (hans : env.completeFn (systemIntro ++ interpolate (contextOf mopt)) q = .ok ans) :
    (POST env s).2.2 = PostResponse.answer ans ∧
    interpolate (contextOf mopt) = (if mopt = none then "undefined" else "") := by
  constructor
  · unfold POST
    rw [hini]
    dsimp only
    rw [hq]
    dsimp only
    rw [hqv]
    dsimp only
    rw [hms]
    dsimp only
    rw [hans]
  · rcases hempty with hnone | hnil
    · rw [hnone]
      rfl
    · rw [hnil]
      rfl

/-- Witness for C10 at a concrete environment whose store query returns
an empty match list. -/
theorem no_matches_still_answers_witness :
    (POST noMatchEnv ⟨true, []⟩).2.2 = PostResponse.answer "the answer" :=
  (no_matches_still_answers noMatchEnv ⟨true, []⟩ [] ⟨true, []⟩ "what is alpha?" [1]
    (some []) "the answer" rfl rfl rfl rfl (Or.inr rfl) rfl).1

end PdfChatbot
